import Mathlib

/-!
Verification development for the `bogglesolver` repository.

The Go sources are shallowly embedded below:
* `calculateAdjacency`, `uniqueSortedWords`, `processWord` (the per-word
  filter of `loadWords`), `gridString` and `Solver.solve` follow
  `solver/solver.go`;
* `Trie` with `Trie.insertGo` / `Trie.containsWord` / `Trie.childGo`
  follows `solver/trie.go`, with out-of-bounds array accesses made
  explicit through `Option` (a `none` result models a Go panic).

Go strings are embedded as `List Char`; machine integers are `Nat` or
`Int` (index arithmetic that can go negative is done in `Int`).
The word dictionary of `Solver` is held by the external
`github.com/gammazero/radixtree` package, which is not part of this
repository; it is modelled extensionally as the list of stored words,
with the `Stepper` represented by the byte string accepted so far:
`Stepper.Next` succeeds exactly when the extended string is still a
prefix of some stored word (and leaves the state unchanged on failure),
and `Stepper.Item` is non-nil exactly when the accepted string is a
stored key, whose `Key()` is that string.
-/

abbrev Word := List Char

/-- Lexicographic strict order on words, comparing code points
(byte order for the ASCII data the solver handles). -/
def listLt : Word → Word → Bool
  | _, [] => false
  | [], _ :: _ => true
  | a :: as, b :: bs =>
      if a.toNat < b.toNat then true
      else if b.toNat < a.toNat then false
      else listLt as bs

/-- The lexicographic order used by Go's `sort.StringSlice`. -/
def leW (a b : Word) : Prop := listLt b a = false

instance : DecidableRel leW := fun a b => instDecidableEqBool _ _

/-- The deduplication pass of `uniqueSortedWords`: Go keeps a `prev`
variable (initially the empty string) and appends each element that
differs from it. -/
def uniquePass : List Word → Word → List Word
  | [], _ => []
  | w :: ws, prev => if w ≠ prev then w :: uniquePass ws w else uniquePass ws prev

/-- `uniqueSortedWords` from `solver.go`: return the input when empty,
otherwise sort lexicographically and drop adjacent repeats.
`sort.Sort` is any sorting algorithm for `≤`; since `≤` on strings is
total and antisymmetric the sorted permutation is unique, so
`List.insertionSort` computes the same list. -/
def uniqueSortedWords (words : List Word) : List Word :=
  if words.isEmpty then words
  else uniquePass (List.insertionSort leW words) []

/-- The normalizer as the spec describes it: sort lexicographically and
remove exact duplicates. -/
def normalizeSpec (words : List Word) : List Word :=
  (List.insertionSort leW words).dedup

/-- The per-word filtering/transformation step of `loadWords`
(`solver.go`).  `none` means the word is skipped, `some w'` means `w'`
is inserted into the dictionary. -/
def processWord (maxLen minLen : Nat) (w : Word) : Option Word :=
  if w.length > maxLen || w.length < minLen then none
  else if (w.headD 'a').toNat < 97 then none
  else if w.headD 'a' = 'q' then
    if w.getD 1 ' ' ≠ 'u' then none
    else some ('q' :: w.drop 2)
  else some w

/-- `calculateAdjacency` from `solver.go`.  The Go function writes into
a shared scratch slice; its value semantics is the returned list.
Go's `y-1 >= 0` / `x-1 >= 0` over `int` become `1 ≤ y` / `1 ≤ x`. -/
def calculateAdjacency (xlim ylim sq : Nat) : List Nat :=
  let y := sq / xlim
  let x := sq - y * xlim
  (if 1 ≤ y then
      (if 1 ≤ x then [sq - xlim - 1] else []) ++ [sq - xlim] ++
      (if x + 1 < xlim then [sq - xlim + 1] else [])
    else []) ++
  (if 1 ≤ x then [sq - 1] else []) ++
  (if x + 1 < xlim then [sq + 1] else []) ++
  (if y + 1 < ylim then
      (if 1 ≤ x then [sq + xlim - 1] else []) ++ [sq + xlim] ++
      (if x + 1 < xlim then [sq + xlim + 1] else [])
    else [])

/-- One optional cell of the specification's neighbor list. -/
def optCell (p : Prop) [Decidable p] (v : Nat) : List Nat :=
  if p then [v] else []

/-- The adjacency contract as the spec words it: the in-bounds cells
among above-left, above, above-right, left, right, below-left, below,
below-right, in that order, written in coordinates. -/
def neighborsSpec (cols rows sq : Nat) : List Nat :=
  let y := sq / cols
  let x := sq % cols
  optCell (1 ≤ x ∧ 1 ≤ y) ((y - 1) * cols + (x - 1)) ++
  optCell (1 ≤ y) ((y - 1) * cols + x) ++
  optCell (x + 1 < cols ∧ 1 ≤ y) ((y - 1) * cols + (x + 1)) ++
  optCell (1 ≤ x) (y * cols + (x - 1)) ++
  optCell (x + 1 < cols) (y * cols + (x + 1)) ++
  optCell (1 ≤ x ∧ y + 1 < rows) ((y + 1) * cols + (x - 1)) ++
  optCell (y + 1 < rows) ((y + 1) * cols + x) ++
  optCell (x + 1 < cols ∧ y + 1 < rows) ((y + 1) * cols + (x + 1))

/-! ## The search engine (`Solver.Solve`) -/

/-- The dictionary, extensionally: the list of words stored in the
radix tree by `loadWords` (leading "qu" already collapsed to "q"). -/
abbrev Dict := List Word

/-- Modelled from the spec: single-step prefix descent of the external
radix tree's `Stepper.Next` — the step from accepted string `p` by one
more character succeeds exactly when some stored word still has the
extended string as a prefix. -/
def livePfx (dict : Dict) (p : Word) : Bool :=
  dict.any (fun w => p.isPrefixOf w)

/-- `qNode` from `solver.go`: the queue element of the breadth-first
search.  `pfx` is the state of the `Stepper` (`parentTrie`), i.e. the
string accepted so far; `seen` is the visited-cell list. -/
structure QNode where
  parentSquare : Nat
  pfx : Word
  seen : List Nat
deriving DecidableEq, Repr

/-- Reading a letter of the (lowercased) board, `board[c]` in Go. -/
def letterAt (board : Word) (c : Nat) : Char := board.getD c ' '

/-- The initial queue node for a start cell.  Go calls
`stepper.Next(board[initSq])` and ignores the result, so when the
letter begins no stored word the stepper stays at the root (empty
accepted string). -/
def initNode (dict : Dict) (board : Word) (initSq : Nat) : QNode :=
  { parentSquare := initSq
    pfx := if livePfx dict [letterAt board initSq] then [letterAt board initSq] else []
    seen := [initSq] }

/-- The neighbor cells the inner loop of `Solve` actually descends to:
adjacent, not yet seen, and still a live dictionary prefix. -/
def admissibleSquares (dict : Dict) (board : Word) (cols rows : Nat) (qn : QNode) :
    List Nat :=
  (calculateAdjacency cols rows qn.parentSquare).filter
    (fun c => !qn.seen.contains c && livePfx dict (qn.pfx ++ [letterAt board c]))

/-- The queue node pushed for neighbor `c`: stepper advanced by one
letter, visited list copied and extended by exactly `c`. -/
def childNode (board : Word) (qn : QNode) (c : Nat) : QNode :=
  { parentSquare := c
    pfx := qn.pfx ++ [letterAt board c]
    seen := qn.seen ++ [c] }

/-- All queue nodes pushed while expanding `qn`, in adjacency order. -/
def expand (dict : Dict) (board : Word) (cols rows : Nat) (qn : QNode) : List QNode :=
  (admissibleSquares dict board cols rows qn).map (childNode board qn)

/-- Output rehydration: a stored word starting with the collapsed `q`
is reported as "qu…" (`if key[0] == 'q' then "qu" + key[1:]` in Go;
keys are never empty, so the `[]` arm is unreachable). -/
def rehydrate (w : Word) : Word :=
  match w with
  | [] => []
  | c :: rest => if c = 'q' then 'q' :: 'u' :: rest else c :: rest

/-- The words appended while expanding one node: for every pushed child
whose accepted string is a stored key, the (rehydrated) key. -/
def emittedWords (dict : Dict) (ns : List QNode) : List Word :=
  (ns.filter (fun n => dict.contains n.pfx)).map (fun n => rehydrate n.pfx)

/-- The inner `for q.Len() != 0` loop of `Solve`: pop the front node,
push its expansions, append the completed words.  The loop always
terminates (see `drain_isSome`); `fuel` makes the recursion structural,
and `none` marks fuel exhaustion, which never occurs for the fuel
`Solver.solve` supplies. -/
def drain (dict : Dict) (board : Word) (cols rows : Nat) :
    Nat → List QNode → List Word → Option (List Word)
  | 0, [], ws => some ws
  | 0, _ :: _, _ => none
  | _ + 1, [], ws => some ws
  | fuel + 1, qn :: rest, ws =>
      drain dict board cols rows fuel (rest ++ expand dict board cols rows qn)
        (ws ++ emittedWords dict (expand dict board cols rows qn))

/-- The outer `for initSq` loop of `Solve`: for each start cell push
its initial node and drain the queue. -/
def runCells (dict : Dict) (board : Word) (cols rows fuel : Nat) :
    List Nat → List Word → Option (List Word)
  | [], ws => some ws
  | i :: is, ws =>
      match drain dict board cols rows fuel [initNode dict board i] ws with
      | none => none
      | some ws' => runCells dict board cols rows fuel is ws'

/-- The `Solver` struct: board dimensions and the dictionary; `rt` is
`none` for the zero-value solver whose words file was never read. -/
structure Solver where
  cols : Nat
  rows : Nat
  rt : Option Dict

/-- `BoardSize` from `solver.go`. -/
def Solver.boardSize (s : Solver) : Nat := s.cols * s.rows

/-- `Solver.Solve` from `solver.go`.  The outer `none` marks fuel
exhaustion of the embedded loop and never occurs (`solve_isSome`);
`Except.error` carries the Go error strings. -/
def Solver.solve (s : Solver) (grid : Word) : Option (Except String (List Word)) :=
  match s.rt with
  | none => some (Except.error "failed to read words file")
  | some dict =>
      if grid.length ≠ s.boardSize then
        if grid.length < s.boardSize then
          some (Except.error "not enough letters for board")
        else
          some (Except.error "too many letters for board")
      else
        match runCells dict (grid.map Char.toLower) s.cols s.rows
            (9 ^ s.boardSize) (List.range s.boardSize) [] with
        | none => none
        | some raw => some (Except.ok (uniqueSortedWords raw))

/-- `Solve` with one start cell omitted from the outer loop; used to
state that a start cell whose letter begins no dictionary word does
not affect the result. -/
def Solver.solveSkip (s : Solver) (skip : Nat) (grid : Word) :
    Option (Except String (List Word)) :=
  match s.rt with
  | none => some (Except.error "failed to read words file")
  | some dict =>
      if grid.length ≠ s.boardSize then
        if grid.length < s.boardSize then
          some (Except.error "not enough letters for board")
        else
          some (Except.error "too many letters for board")
      else
        match runCells dict (grid.map Char.toLower) s.cols s.rows
            (9 ^ s.boardSize) ((List.range s.boardSize).filter (fun j => j ≠ skip)) [] with
        | none => none
        | some raw => some (Except.ok (uniqueSortedWords raw))

/-! ## Specification-side notions for the search -/

/-- A simple path on the board: non-empty, no repeated cell, all cells
in range, each successive cell adjacent to the previous one. -/
def IsPath (cols rows : Nat) (p : List Nat) : Prop :=
  p ≠ [] ∧ p.Nodup ∧ (∀ c ∈ p, c < cols * rows) ∧
    List.Chain' (fun a b => b ∈ calculateAdjacency cols rows a) p

/-- A stored dictionary word spellable by a simple path on the board. -/
def Spellable (dict : Dict) (board : Word) (cols rows : Nat) (d : Word) : Prop :=
  d ∈ dict ∧ ∃ p, IsPath cols rows p ∧ d = p.map (letterAt board)

/-- `Emits qn x`: the word `x` is appended at some point while the
queue starting from node `qn` is drained. -/
inductive Emits (dict : Dict) (board : Word) (cols rows : Nat) : QNode → Word → Prop
  | here {qn x} : x ∈ emittedWords dict (expand dict board cols rows qn) →
      Emits dict board cols rows qn x
  | deeper {qn qn' x} : qn' ∈ expand dict board cols rows qn →
      Emits dict board cols rows qn' x → Emits dict board cols rows qn x

/-- The frontier invariant of the claims: non-empty duplicate-free
visited list of in-range cells whose last element is the current
cell. -/
def InvT (B : Nat) (qn : QNode) : Prop :=
  qn.seen ≠ [] ∧ qn.seen.Nodup ∧ (∀ c ∈ qn.seen, c < B) ∧
    qn.seen.getLast? = some qn.parentSquare

/-- The full soundness invariant: the visited list is a simple path
ending at the current cell, and the accepted string is the letter
sequence of the visited list — or of its tail, for searches whose
start letter began no stored word (the ignored `stepper.Next` at the
start cell leaves the stepper at the root). -/
def InvS (dict : Dict) (board : Word) (cols rows : Nat) (qn : QNode) : Prop :=
  IsPath cols rows qn.seen ∧ qn.seen.getLast? = some qn.parentSquare ∧
    (qn.pfx = qn.seen.map (letterAt board) ∨
     qn.pfx = (qn.seen.drop 1).map (letterAt board))

/-! ## Grid rendering (`GridString`) -/

/-- Sequencing a list of fallible lookups; `none` models a panic. -/
def optTraverse (f : α → Option β) : List α → Option (List β)
  | [] => some []
  | a :: as =>
      match f a, optTraverse f as with
      | some b, some bs => some (b :: bs)
      | _, _ => none

/-- One rendered cell of a grid row: `" Qu"` for the letter Q, a
space-padded letter otherwise (`fmt.Sprintf(" %c ", cell)`). -/
def renderCell (cell : Char) : String :=
  if cell = 'Q' then " Qu" else String.mk [' ', cell, ' ']

/-- `GridString` from `solver.go`.  `none` models the Go panic on a
length mismatch (the explicit check, and the cell lookups that the
check makes unreachable). -/
def gridString (grid : Word) (cols rows : Nat) : Option String :=
  if grid.length ≠ cols * rows then none
  else
    match optTraverse
        (fun y => (optTraverse
            (fun x => ((grid.map Char.toUpper).get? (y * cols + x)).map renderCell)
            (List.range cols)).map
          (fun cells => String.intercalate "|" ([""] ++ cells ++ ["\n"])))
        (List.range rows) with
    | none => none
    | some rowLines =>
        some (String.intercalate
          (String.intercalate "+" ([""] ++ List.replicate cols "---" ++ ["\n"]))
          ([""] ++ rowLines ++ [""]))

/-! ## The array-backed trie (`trie.go`) -/

/-- `Trie` from `trie.go`: a word-completion flag and the 26-slot
child array, modelled as its lookup function; every access is guarded
by the array-bounds check of the Go index expression `int(c - 'a')`,
so slots outside `[0, 26)` are never read or written. -/
inductive Trie where
  | node : Bool → (Nat → Option Trie) → Trie

/-- The `isWord` field. -/
def Trie.isWordFlag : Trie → Bool
  | .node b _ => b

/-- `new(Trie)`: zero value, no children, not a word. -/
def Trie.emptyTrie : Trie := .node false (fun _ => none)

/-- The Go index expression `int(c - 'a')`, which can be negative. -/
def charIdx (c : Char) : Int := (c.toNat : Int) - 97

/-- Whether `int(c - 'a')` lands inside the 26-entry array. -/
def idxOK (c : Char) : Bool := 97 ≤ c.toNat && c.toNat ≤ 122

/-- `Trie.Child` from `trie.go` (no case folding): `none` models the
out-of-bounds panic, `some r` the in-bounds array read. -/
def Trie.childGo (t : Trie) (c : Char) : Option (Option Trie) :=
  match t with
  | .node _ f =>
      if 0 ≤ charIdx c ∧ charIdx c < 26 then some (f (charIdx c).toNat)
      else none

/-- The loop of `Trie.Insert` over the already-lowercased characters;
`none` models the out-of-bounds panic. -/
def Trie.insertAux : Trie → Word → Option Trie
  | .node _ f, [] => some (.node true f)
  | .node b f, c :: cs =>
      if 0 ≤ charIdx c ∧ charIdx c < 26 then
        match Trie.insertAux ((f (charIdx c).toNat).getD Trie.emptyTrie) cs with
        | some t' => some (.node b (fun j =>
            if j = (charIdx c).toNat then some t' else f j))
        | none => none
      else none

/-- `Trie.Insert` from `trie.go`: lowercase the word, then descend,
creating missing nodes, and set the word flag at the end. -/
def Trie.insertGo (t : Trie) (w : Word) : Option Trie :=
  t.insertAux (w.map Char.toLower)

/-- The loop of `Trie.ContainsWord` over the lowercased characters. -/
def Trie.containsAux : Trie → Word → Option Bool
  | t, [] => some t.isWordFlag
  | .node _ f, c :: cs =>
      if 0 ≤ charIdx c ∧ charIdx c < 26 then
        match f (charIdx c).toNat with
        | none => some false
        | some t' => Trie.containsAux t' cs
      else none

/-- `Trie.ContainsWord` from `trie.go`. -/
def Trie.containsWord (t : Trie) (w : Word) : Option Bool :=
  t.containsAux (w.map Char.toLower)

/-- Inserting a list of words in order, propagating a panic. -/
def insertAll : Trie → List Word → Option Trie
  | t, [] => some t
  | t, w :: ws =>
      match t.insertGo w with
      | some t' => insertAll t' ws
      | none => none

/-! ## The lexicographic order: basic lemmas -/

/-- Strict lexicographic order as a proposition. -/
def ltW (a b : Word) : Prop := listLt a b = true

theorem charToNat_inj {a b : Char} (h : a.toNat = b.toNat) : a = b := by
  have h2 := congrArg Char.ofNat h
  rwa [Char.ofNat_toNat, Char.ofNat_toNat] at h2

theorem listLt_nil (a : Word) : listLt a [] = false := by
  cases a <;> rfl

theorem listLt_irrefl : ∀ a : Word, listLt a a = false
  | [] => rfl
  | a :: as => by simp [listLt, listLt_irrefl as]

theorem listLt_trans : ∀ a b c : Word,
    listLt a b = true → listLt b c = true → listLt a c = true
  | _, b, [], _, h2 => by rw [listLt_nil] at h2; exact absurd h2 (by simp)
  | [], _, _ :: _, _, _ => rfl
  | _ :: _, [], _, h1, _ => by rw [listLt_nil] at h1; exact absurd h1 (by simp)
  | a :: as, b :: bs, c :: cs, h1, h2 => by
      simp only [listLt] at h1 h2 ⊢
      by_cases hab : a.toNat < b.toNat <;> by_cases hba : b.toNat < a.toNat <;>
        by_cases hbc : b.toNat < c.toNat <;> by_cases hcb : c.toNat < b.toNat <;>
        simp [hab, hba, hbc, hcb] at h1 h2 ⊢ <;>
        first
          | omega
          | (constructor <;> omega)
          | (intro h3 h4; omega)
          | (intro h3 h4; exact listLt_trans as bs cs h1 h2)
          | exact Or.inr ⟨by omega, listLt_trans as bs cs h1 h2⟩

theorem listLt_tri : ∀ a b : Word, listLt a b = true ∨ a = b ∨ listLt b a = true
  | [], [] => Or.inr (Or.inl rfl)
  | [], _ :: _ => Or.inl rfl
  | _ :: _, [] => Or.inr (Or.inr rfl)
  | a :: as, b :: bs => by
      by_cases hab : a.toNat < b.toNat
      · exact Or.inl (by simp [listLt, hab])
      · by_cases hba : b.toNat < a.toNat
        · exact Or.inr (Or.inr (by simp [listLt, hba, hab]))
        · have hc : a = b := charToNat_inj (by omega)
          subst hc
          rcases listLt_tri as bs with h | h | h
          · exact Or.inl (by simp [listLt, hab, hba, h])
          · exact Or.inr (Or.inl (by rw [h]))
          · exact Or.inr (Or.inr (by simp [listLt, hab, hba, h]))

theorem listLt_asymm {a b : Word} (h1 : listLt a b = true) :
    listLt b a = false := by
  by_contra h2
  have h3 := listLt_trans a b a h1 (by revert h2; cases listLt b a <;> simp)
  rw [listLt_irrefl] at h3
  exact absurd h3 (by simp)

theorem ltW_of_leW_ne {a b : Word} (h1 : leW a b) (h2 : a ≠ b) : ltW a b := by
  rcases listLt_tri a b with h | h | h
  · exact h
  · exact absurd h h2
  · exact absurd h (by simp [leW] at h1; simp [h1])

instance : IsTotal Word leW :=
  ⟨fun a b => by
    by_cases h : listLt b a = true
    · exact Or.inr (listLt_asymm h)
    · exact Or.inl (by revert h; unfold leW; cases listLt b a <;> simp)⟩

instance : IsTrans Word leW :=
  ⟨fun a b c h1 h2 => by
    unfold leW at h1 h2 ⊢
    by_contra h3
    have h4 : listLt c a = true := by revert h3; cases listLt c a <;> simp
    rcases listLt_tri a b with h | h | h
    · have := listLt_trans c a b h4 h
      rw [h2] at this; exact absurd this (by simp)
    · subst h; rw [h4] at h2; exact absurd h2 (by simp)
    · rw [h1] at h; exact absurd h (by simp)⟩

/-! ## The normalizer: sortedness, membership, dedup -/

theorem uniquePass_sorted : ∀ (l : List Word) (prev : Word),
    List.Sorted leW l → (∀ x ∈ l, leW prev x) →
    List.Pairwise ltW (uniquePass l prev) ∧
      (∀ y, y ∈ uniquePass l prev ↔ y ∈ l ∧ y ≠ prev)
  | [], prev, _, _ => by simp [uniquePass]
  | w :: ws, prev, hs, hp => by
      have hsws : List.Sorted leW ws := hs.of_cons
      have hhead : ∀ x ∈ ws, leW w x := fun x hx => List.rel_of_sorted_cons hs x hx
      by_cases hwp : w = prev
      · subst hwp
        have ih := uniquePass_sorted ws w hsws hhead
        rw [uniquePass, if_neg (fun h => h rfl)]
        refine ⟨ih.1, fun y => ?_⟩
        rw [ih.2 y]
        constructor
        · exact fun h => ⟨List.mem_cons_of_mem _ h.1, h.2⟩
        · rintro ⟨h1, h2⟩
          rcases List.mem_cons.1 h1 with h | h
          · exact absurd h h2
          · exact ⟨h, h2⟩
      · have ih := uniquePass_sorted ws w hsws hhead
        have hltpw : ltW prev w := by
          have := hp w (List.mem_cons_self w ws)
          rcases listLt_tri prev w with h | h | h
          · exact h
          · exact absurd h.symm hwp
          · simp [leW] at this; rw [this] at h; exact absurd h (by simp)
        rw [uniquePass, if_pos hwp]
        constructor
        · refine List.pairwise_cons.2 ⟨fun y hy => ?_, ih.1⟩
          have hmem := (ih.2 y).1 hy
          exact ltW_of_leW_ne (hhead y hmem.1) (fun h => hmem.2 h.symm)
        · intro y
          rw [List.mem_cons, ih.2 y]
          constructor
          · rintro (rfl | ⟨h1, h2⟩)
            · exact ⟨List.mem_cons_self _ _, hwp⟩
            · refine ⟨List.mem_cons_of_mem _ h1, fun hyp => ?_⟩
              subst hyp
              have h3 : leW w y := hhead y h1
              simp only [leW] at h3
              simp only [ltW, h3] at hltpw
              exact Bool.noConfusion hltpw
          · rintro ⟨h1, h2⟩
            rcases List.mem_cons.1 h1 with rfl | h
            · exact Or.inl rfl
            · by_cases hyw : y = w
              · exact Or.inl hyw
              · exact Or.inr ⟨h, hyw⟩

theorem leW_nil (x : Word) : leW [] x := by
  simp only [leW, listLt_nil]

theorem uniqueSortedWords_pairwise (ws : List Word) :
    List.Pairwise ltW (uniqueSortedWords ws) := by
  rw [uniqueSortedWords]
  by_cases h : ws.isEmpty
  · rw [if_pos h]
    rcases ws with _ | _
    · exact List.Pairwise.nil
    · exact absurd h (by simp)
  · rw [if_neg h]
    exact (uniquePass_sorted _ [] (List.sorted_insertionSort leW ws)
      (fun x _ => leW_nil x)).1

theorem mem_uniqueSortedWords (ws : List Word) (y : Word) :
    y ∈ uniqueSortedWords ws ↔ y ∈ ws ∧ y ≠ [] := by
  rw [uniqueSortedWords]
  by_cases h : ws.isEmpty
  · rw [if_pos h]
    rcases ws with _ | _
    · simp
    · exact absurd h (by simp)
  · rw [if_neg h]
    rw [(uniquePass_sorted _ [] (List.sorted_insertionSort leW ws)
      (fun x _ => leW_nil x)).2 y]
    rw [List.mem_insertionSort]

theorem eq_of_pairwise_ltW : ∀ l₁ l₂ : List Word, List.Pairwise ltW l₁ →
    List.Pairwise ltW l₂ → (∀ x, x ∈ l₁ ↔ x ∈ l₂) → l₁ = l₂
  | [], [], _, _, _ => rfl
  | [], b :: bs, _, _, h => by
      have := (h b).2 (List.mem_cons_self b bs)
      exact absurd this (List.not_mem_nil b)
  | a :: as, [], _, _, h => by
      have := (h a).1 (List.mem_cons_self a as)
      exact absurd this (List.not_mem_nil a)
  | a :: as, b :: bs, h1, h2, h => by
      have hab : a = b := by
        by_contra hne
        have ha := (h a).1 (List.mem_cons_self a as)
        have hb := (h b).2 (List.mem_cons_self b bs)
        rcases List.mem_cons.1 ha with h3 | h3
        · exact hne h3
        · rcases List.mem_cons.1 hb with h4 | h4
          · exact hne h4.symm
          · have h5 : ltW b a := (List.pairwise_cons.1 h2).1 a h3
            have h6 : ltW a b := (List.pairwise_cons.1 h1).1 b h4
            have := listLt_asymm h6
            simp only [ltW] at h5
            rw [this] at h5
            exact Bool.noConfusion h5
      subst hab
      have htail : ∀ x, x ∈ as ↔ x ∈ bs := by
        intro x
        constructor
        · intro hx
          have := (h x).1 (List.mem_cons_of_mem a hx)
          rcases List.mem_cons.1 this with rfl | h3
          · have h4 : ltW x x := (List.pairwise_cons.1 h1).1 x hx
            simp only [ltW, listLt_irrefl] at h4
            exact Bool.noConfusion h4
          · exact h3
        · intro hx
          have := (h x).2 (List.mem_cons_of_mem a hx)
          rcases List.mem_cons.1 this with rfl | h3
          · have h4 : ltW x x := (List.pairwise_cons.1 h2).1 x hx
            simp only [ltW, listLt_irrefl] at h4
            exact Bool.noConfusion h4
          · exact h3
      rw [eq_of_pairwise_ltW as bs h1.of_cons h2.of_cons htail]

/-- Inverting a successful `Solve`: the dictionary was present, the
grid length matched, and the output is the normalized raw word list. -/
theorem solve_ok_inv {s : Solver} {grid : Word} {out : List Word}
    (h : s.solve grid = some (Except.ok out)) :
    ∃ dict raw, s.rt = some dict ∧ grid.length = s.boardSize ∧
      runCells dict (grid.map Char.toLower) s.cols s.rows (9 ^ s.boardSize)
        (List.range s.boardSize) [] = some raw ∧
      out = uniqueSortedWords raw := by
  obtain ⟨cols, rows, rt⟩ := s
  rcases rt with _ | dict
  · exact absurd h (by simp [Solver.solve])
  · unfold Solver.solve at h
    simp only at h
    by_cases hlen : grid.length = Solver.boardSize ⟨cols, rows, some dict⟩
    · rw [if_neg (by simp [hlen])] at h
      rcases hrun : runCells dict (grid.map Char.toLower) cols rows
          (9 ^ Solver.boardSize ⟨cols, rows, some dict⟩)
          (List.range (Solver.boardSize ⟨cols, rows, some dict⟩)) [] with _ | raw
      · rw [hrun] at h
        exact absurd h (by simp)
      · rw [hrun] at h
        simp only [Option.some.injEq, Except.ok.injEq] at h
        exact ⟨dict, raw, rfl, hlen, hrun, h.symm⟩
    · rw [if_pos hlen] at h
      by_cases h2 : grid.length < Solver.boardSize ⟨cols, rows, some dict⟩ <;>
        simp [h2] at h

theorem normalizeSpec_pairwise (ws : List Word) :
    List.Pairwise ltW (normalizeSpec ws) := by
  have hs : List.Pairwise leW (normalizeSpec ws) :=
    (List.sorted_insertionSort leW ws).sublist (List.dedup_sublist _)
  have hn : (normalizeSpec ws).Nodup := List.nodup_dedup _
  exact (hs.and hn).imp (fun h => ltW_of_leW_ne h.1 h.2)

theorem uniqueSortedWords_eq_normalizeSpec (ws : List Word) (h : [] ∉ ws) :
    uniqueSortedWords ws = normalizeSpec ws := by
  refine eq_of_pairwise_ltW _ _ (uniqueSortedWords_pairwise ws)
    (normalizeSpec_pairwise ws) (fun x => ?_)
  rw [mem_uniqueSortedWords]
  unfold normalizeSpec
  rw [List.mem_dedup, List.mem_insertionSort]
  constructor
  · exact fun hx => hx.1
  · exact fun hx => ⟨hx, fun he => h (he ▸ hx)⟩

/-- C2, counterexample: `uniqueSortedWords` is not "sort and remove
exact duplicates" on all inputs — on the one-element list holding the
empty string it removes the (non-duplicated) empty string, because the
deduplication variable `prev` starts out as the empty string. -/
theorem uniqueSortedWords_empty_string_cex :
    uniqueSortedWords [([] : Word)] = [] ∧
      normalizeSpec [([] : Word)] = [[]] ∧
      uniqueSortedWords [([] : Word)] ≠ normalizeSpec [([] : Word)] := by
  refine ⟨rfl, rfl, ?_⟩
  intro h
  exact List.noConfusion (h.trans rfl)

/-- C2 (amended): every non-error `Solve` result is strictly
increasing in lexicographic order (no duplicates, no inversions);
`uniqueSortedWords` agrees with "sort lexicographically and remove
exact duplicates" on every input without the empty string (in
particular on everything `Solve` feeds it), though it additionally
drops empty strings; and on empty input it yields empty output. -/
theorem solve_sorted_unique :
    (∀ (s : Solver) (grid : Word) (out : List Word),
        s.solve grid = some (Except.ok out) → List.Pairwise ltW out) ∧
      (∀ ws : List Word, [] ∉ ws → uniqueSortedWords ws = normalizeSpec ws) ∧
      uniqueSortedWords [] = [] := by
  refine ⟨fun s grid out h => ?_, uniqueSortedWords_eq_normalizeSpec, rfl⟩
  obtain ⟨dict, raw, _, _, _, hout⟩ := solve_ok_inv h
  rw [hout]
  exact uniqueSortedWords_pairwise raw

/-- C5, counterexample: a word whose first character is above `'z'`
(so not a lowercase letter) is nevertheless inserted — the code only
rejects first characters below `'a'` (its stated aim is to skip
capitalized words). -/
theorem processWord_above_z_cex :
    processWord 16 3 ['~', 'a', 'b'] = some ['~', 'a', 'b'] ∧
      Char.isLower '~' = false := by
  exact ⟨rfl, rfl⟩

/-- C5 (amended): a word is inserted iff it survives the filters,
where the alphabet filter is: skip exactly the words whose first
character is below `'a'` (code point < 97, e.g. capitalized words);
characters above `'z'` are not filtered.  Length and q/qu handling are
as the claim states them. -/
theorem processWord_spec (maxLen : Nat) (w w' : Word) :
    processWord maxLen 3 w = some w' ↔
      (w.length ≤ maxLen ∧ 3 ≤ w.length ∧
       97 ≤ (w.headD 'a').toNat ∧
       (w.headD 'a' = 'q' → w.getD 1 ' ' = 'u' ∧ w' = 'q' :: w.drop 2) ∧
       (w.headD 'a' ≠ 'q' → w' = w)) := by
  unfold processWord
  split_ifs with h1 h2 h3 h4
  · simp only [Bool.or_eq_true, decide_eq_true_eq] at h1
    constructor
    · intro h
      exact absurd h (by simp)
    · intro h
      omega
  · simp only [Bool.or_eq_true, decide_eq_true_eq, not_or] at h1
    constructor
    · intro h
      exact absurd h (by simp)
    · intro h
      omega
  · simp only [Bool.or_eq_true, decide_eq_true_eq, not_or] at h1
    constructor
    · intro h
      exact absurd h (by simp)
    · rintro ⟨-, -, -, hq, -⟩
      exact absurd (hq h3).1 h4
  · simp only [Bool.or_eq_true, decide_eq_true_eq, not_or] at h1
    simp only [not_lt] at h2 h4
    constructor
    · intro h
      simp only [Option.some.injEq] at h
      refine ⟨by omega, by omega, h2, fun _ => ⟨by simpa using h4, h.symm⟩,
        fun hne => absurd h3 hne⟩
    · rintro ⟨-, -, -, hq, -⟩
      rw [(hq h3).2]
  · simp only [Bool.or_eq_true, decide_eq_true_eq, not_or] at h1
    simp only [not_lt] at h2
    constructor
    · intro h
      simp only [Option.some.injEq] at h
      exact ⟨by omega, by omega, h2, fun hq => absurd hq h3, fun _ => h.symm⟩
    · rintro ⟨-, -, -, -, hne⟩
      rw [hne h3]

/-! ## Adjacency lemmas -/

/-- `calculateAdjacency` computes exactly the specification's ordered
in-bounds neighbor list, written in coordinates. -/
theorem calculateAdjacency_eq_neighborsSpec (cols rows sq : Nat)
    (h : sq < cols * rows) :
    calculateAdjacency cols rows sq = neighborsSpec cols rows sq := by
  have hcols : 0 < cols := by
    rcases Nat.eq_zero_or_pos cols with h0 | h0
    · rw [h0] at h
      simp at h
    · exact h0
  have hdm := Nat.div_add_mod sq cols
  have hmlt : sq % cols < cols := Nat.mod_lt _ hcols
  simp only [calculateAdjacency, neighborsSpec, optCell]
  have hx : sq - sq / cols * cols = sq % cols := by
    rw [Nat.mul_comm]
    omega
  rw [hx]
  clear hx
  generalize sq / cols = q at hdm ⊢
  generalize sq % cols = r at hdm hmlt ⊢
  have hA : (q - 1) * cols = cols * q - cols := by
    rw [Nat.sub_mul, Nat.one_mul, Nat.mul_comm]
  have hB : (q + 1) * cols = cols * q + cols := by
    rw [Nat.add_mul, Nat.one_mul, Nat.mul_comm]
  have hC : q * cols = cols * q := Nat.mul_comm q cols
  rw [hA, hB, hC]
  clear hA hB hC
  have hMd : (q = 0 ∧ cols * q = 0) ∨ (1 ≤ q ∧ cols ≤ cols * q) := by
    rcases Nat.eq_zero_or_pos q with h0 | h0
    · exact Or.inl ⟨h0, by rw [h0, Nat.mul_zero]⟩
    · refine Or.inr ⟨h0, ?_⟩
      calc cols = cols * 1 := by rw [Nat.mul_one]
        _ ≤ cols * q := Nat.mul_le_mul_left cols h0
  generalize cols * q = M at hdm hMd ⊢
  by_cases h1 : 1 ≤ q <;> by_cases h2 : 1 ≤ r <;> by_cases h3 : r + 1 < cols <;>
    by_cases h4 : q + 1 < rows <;>
    simp [h1, h2, h3, h4] <;> omega

/-- Any cell with in-range coordinates has an in-range index. -/
theorem cell_lt (cols rows yy xx : Nat) (hy : yy < rows) (hx : xx < cols) :
    yy * cols + xx < cols * rows := by
  have h1 : yy * cols + xx < (yy + 1) * cols := by
    rw [Nat.add_mul, Nat.one_mul]
    omega
  have h2 : (yy + 1) * cols ≤ rows * cols := Nat.mul_le_mul_right cols hy
  rw [Nat.mul_comm rows cols] at h2
  omega

/-- All neighbors of an in-range cell are in range. -/
theorem mem_calculateAdjacency_lt {cols rows sq c : Nat} (h : sq < cols * rows)
    (hc : c ∈ calculateAdjacency cols rows sq) : c < cols * rows := by
  rw [calculateAdjacency_eq_neighborsSpec cols rows sq h] at hc
  have hcols : 0 < cols := by
    rcases Nat.eq_zero_or_pos cols with h0 | h0
    · rw [h0] at h
      simp at h
    · exact h0
  have hmlt : sq % cols < cols := Nat.mod_lt _ hcols
  have hqlt : sq / cols < rows := Nat.div_lt_iff_lt_mul hcols |>.2 (by
    rw [Nat.mul_comm]
    exact h)
  simp only [neighborsSpec, optCell, List.mem_append] at hc
  generalize hq : sq / cols = q at hc hqlt
  generalize hr : sq % cols = r at hc hmlt
  rcases hc with ((((((hc | hc) | hc) | hc) | hc) | hc) | hc) | hc <;>
    rw [List.mem_ite_nil_right] at hc <;>
    obtain ⟨hg, hm⟩ := hc <;>
    rw [List.mem_singleton] at hm <;>
    subst hm <;>
    apply cell_lt <;> omega

/-- A cell has at most eight neighbors. -/
theorem calculateAdjacency_length_le (cols rows sq : Nat) :
    (calculateAdjacency cols rows sq).length ≤ 8 := by
  simp only [calculateAdjacency]
  split_ifs <;> simp

/-- C4, counterexample: on a 1×1 board the unique cell is a corner
(both of its coordinates are extreme), yet it has 0 neighbors, not 3 —
the claimed corner/edge/interior counts require at least two columns
and two rows. -/
theorem calculateAdjacency_corner_cex :
    (0 % 1 = 0 ∨ 0 % 1 = 1 - 1) ∧ (0 / 1 = 0 ∨ 0 / 1 = 1 - 1) ∧
      calculateAdjacency 1 1 0 = [] ∧ (calculateAdjacency 1 1 0).length ≠ 3 := by
  decide

/-- C4 (amended): for every geometry with `cols ≥ 1` and `rows ≥ 1`
and every in-range cell, the adjacency function returns the in-bounds
neighbors in the order above-left, above, above-right, left, right,
below-left, below, below-right, omitting out-of-bounds cells; for
geometries with at least two columns and two rows, corner cells yield
exactly 3 neighbors, non-corner edge cells 5, interior cells 8; and
the four 4×4 examples hold. -/
theorem calculateAdjacency_contract :
    (∀ cols rows sq : Nat, sq < cols * rows →
        calculateAdjacency cols rows sq = neighborsSpec cols rows sq) ∧
      (∀ cols rows sq : Nat, 2 ≤ cols → 2 ≤ rows → sq < cols * rows →
        (((sq % cols = 0 ∨ sq % cols = cols - 1) ∧
            (sq / cols = 0 ∨ sq / cols = rows - 1)) →
          (calculateAdjacency cols rows sq).length = 3) ∧
        ((((sq % cols = 0 ∨ sq % cols = cols - 1) ∧
              0 < sq / cols ∧ sq / cols < rows - 1) ∨
          ((sq / cols = 0 ∨ sq / cols = rows - 1) ∧
              0 < sq % cols ∧ sq % cols < cols - 1)) →
          (calculateAdjacency cols rows sq).length = 5) ∧
        ((0 < sq % cols ∧ sq % cols < cols - 1 ∧
            0 < sq / cols ∧ sq / cols < rows - 1) →
          (calculateAdjacency cols rows sq).length = 8)) ∧
      calculateAdjacency 4 4 0 = [1, 4, 5] ∧
      calculateAdjacency 4 4 3 = [2, 6, 7] ∧
      calculateAdjacency 4 4 1 = [0, 2, 4, 5, 6] ∧
      calculateAdjacency 4 4 5 = [0, 1, 2, 4, 6, 8, 9, 10] := by
  refine ⟨calculateAdjacency_eq_neighborsSpec, ?_, by decide, by decide,
    by decide, by decide⟩
  intro cols rows sq h2c h2r hlt
  have hcols : 0 < cols := by omega
  have hmlt : sq % cols < cols := Nat.mod_lt _ hcols
  have hqlt : sq / cols < rows := Nat.div_lt_iff_lt_mul hcols |>.2 (by
    rw [Nat.mul_comm]
    exact hlt)
  rw [calculateAdjacency_eq_neighborsSpec cols rows sq hlt]
  simp only [neighborsSpec, optCell]
  generalize sq / cols = q at hqlt ⊢
  generalize sq % cols = r at hmlt ⊢
  refine ⟨?_, ?_, ?_⟩ <;> intro hcase <;>
    (by_cases h1 : 1 ≤ q <;> by_cases h2 : 1 ≤ r <;> by_cases h3 : r + 1 < cols <;>
      by_cases h4 : q + 1 < rows <;>
      simp [h1, h2, h3, h4] <;> omega)

/-- Witness for C4's amended theorem at concrete inputs. -/
theorem calculateAdjacency_contract_witness :
    calculateAdjacency 4 4 5 = neighborsSpec 4 4 5 ∧
      (calculateAdjacency 4 4 5).length = 8 ∧
      (calculateAdjacency 4 4 0).length = 3 :=
  ⟨calculateAdjacency_contract.1 4 4 5 (by decide),
    (calculateAdjacency_contract.2.1 4 4 5 (by decide) (by decide)
        (by decide)).2.2 (by decide),
    (calculateAdjacency_contract.2.1 4 4 0 (by decide) (by decide)
        (by decide)).1 (by decide)⟩

/-! ## Grid rendering lemmas -/

theorem optTraverse_isSome {α β : Type} {f : α → Option β} :
    ∀ l : List α, (∀ a ∈ l, (f a).isSome) → (optTraverse f l).isSome
  | [], _ => by simp [optTraverse]
  | a :: as, h => by
      rw [optTraverse]
      rcases hfa : f a with _ | b
      · have hx := h a (List.mem_cons_self a as)
        rw [hfa] at hx
        exact absurd hx (by simp)
      · rcases hrec : optTraverse f as with _ | bs
        · have hx := optTraverse_isSome as (fun x hx => h x (List.mem_cons_of_mem _ hx))
          rw [hrec] at hx
          exact absurd hx (by simp)
        · simp

theorem isSome_optMap {α β : Type} (f : α → β) (o : Option α) :
    (o.map f).isSome = o.isSome := by
  cases o <;> rfl

theorem gridString_isSome (grid : Word) (cols rows : Nat)
    (h : grid.length = cols * rows) : (gridString grid cols rows).isSome := by
  rw [gridString, if_neg (by simp [h])]
  have houter : (optTraverse
      (fun y => (optTraverse
          (fun x => ((grid.map Char.toUpper).get? (y * cols + x)).map renderCell)
          (List.range cols)).map
        (fun cells => String.intercalate "|" ([""] ++ cells ++ ["\n"])))
      (List.range rows)).isSome := by
    apply optTraverse_isSome
    intro y hy
    rw [List.mem_range] at hy
    rw [isSome_optMap]
    apply optTraverse_isSome
    intro x hx
    rw [List.mem_range] at hx
    rw [isSome_optMap]
    have hlen : y * cols + x < (grid.map Char.toUpper).length := by
      rw [List.length_map, h]
      exact cell_lt cols rows y x hy hx
    rw [List.get?_eq_get hlen]
    rfl
  rcases hres : optTraverse
      (fun y => (optTraverse
          (fun x => ((grid.map Char.toUpper).get? (y * cols + x)).map renderCell)
          (List.range cols)).map
        (fun cells => String.intercalate "|" ([""] ++ cells ++ ["\n"])))
      (List.range rows) with _ | rowLines
  · rw [hres] at houter
    exact absurd houter (by simp)
  · rfl

/-- C9: `GridString` panics exactly on a length mismatch — for every
`cols ≥ 1`, `rows ≥ 1`, a grid whose length differs from `cols*rows`
is a hard failure (`none`, the Go panic), and a grid of exactly
`cols*rows` characters renders without failure. -/
theorem gridString_contract (grid : Word) (cols rows : Nat)
    (h1 : 1 ≤ cols) (h2 : 1 ≤ rows) :
    (grid.length ≠ cols * rows → gridString grid cols rows = none) ∧
      (grid.length = cols * rows → (gridString grid cols rows).isSome) := by
  constructor
  · intro hne
    rw [gridString, if_pos hne]
  · exact gridString_isSome grid cols rows

/-- Witness for C9 at concrete inputs. -/
theorem gridString_contract_witness :
    gridString ['a'] 2 1 = none ∧ (gridString ['a', 'b'] 2 1).isSome :=
  ⟨(gridString_contract ['a'] 2 1 (by decide) (by decide)).1 (by decide),
    (gridString_contract ['a', 'b'] 2 1 (by decide) (by decide)).2 (by decide)⟩

/-! ## Trie lemmas (`trie.go`) -/

theorem idxOK_iff (c : Char) : idxOK c = true ↔ (0 ≤ charIdx c ∧ charIdx c < 26) := by
  simp only [idxOK, charIdx, Bool.and_eq_true, decide_eq_true_eq]
  omega

theorem containsAux_emptyTrie : ∀ l : Word, (∀ c ∈ l, idxOK c = true) →
    Trie.containsAux Trie.emptyTrie l = some false
  | [], _ => rfl
  | c :: cs, h => by
      rw [Trie.emptyTrie, Trie.containsAux,
        if_pos ((idxOK_iff c).1 (h c (List.mem_cons_self c cs)))]

theorem containsAux_isSome : ∀ (l : Word) (t : Trie),
    (∀ c ∈ l, idxOK c = true) → (Trie.containsAux t l).isSome
  | [], t, _ => by
      rw [Trie.containsAux]
      rfl
  | c :: cs, .node b f, h => by
      rw [Trie.containsAux, if_pos ((idxOK_iff c).1 (h c (List.mem_cons_self c cs)))]
      rcases f (charIdx c).toNat with _ | t'
      · rfl
      · exact containsAux_isSome cs t' (fun x hx => h x (List.mem_cons_of_mem _ hx))

theorem insertAux_isSome : ∀ (l : Word) (t : Trie),
    (∀ c ∈ l, idxOK c = true) → (Trie.insertAux t l).isSome
  | [], .node b f, _ => by
      rw [Trie.insertAux]
      rfl
  | c :: cs, .node b f, h => by
      rw [Trie.insertAux, if_pos ((idxOK_iff c).1 (h c (List.mem_cons_self c cs)))]
      have hrec := insertAux_isSome cs ((f (charIdx c).toNat).getD Trie.emptyTrie)
        (fun x hx => h x (List.mem_cons_of_mem _ hx))
      rcases hres : Trie.insertAux ((f (charIdx c).toNat).getD Trie.emptyTrie) cs
        with _ | nt
      · rw [hres] at hrec
        exact absurd hrec (by simp)
      · rfl

/-- The effect of a (lowered-level) insert on a (lowered-level)
lookup: the inserted word is now contained, nothing else changes. -/
theorem containsAux_insertAux : ∀ (v : Word) (t t' : Trie),
    Trie.insertAux t v = some t' → ∀ w : Word, (∀ c ∈ w, idxOK c = true) →
    Trie.containsAux t' w = if w = v then some true else Trie.containsAux t w
  | [], .node b f, t', hins, w, hw => by
      rw [Trie.insertAux] at hins
      simp only [Option.some.injEq] at hins
      subst hins
      cases w with
      | nil => rw [if_pos rfl]; rfl
      | cons c cs => rw [if_neg (by simp)]; rfl
  | a :: as, .node b f, t', hins, w, hw => by
      rw [Trie.insertAux] at hins
      by_cases h : 0 ≤ charIdx a ∧ charIdx a < 26
      · rw [if_pos h] at hins
        rcases hrec : Trie.insertAux ((f (charIdx a).toNat).getD Trie.emptyTrie) as
          with _ | nt
        · rw [hrec] at hins
          exact absurd hins (by simp)
        · rw [hrec] at hins
          simp only [Option.some.injEq] at hins
          subst hins
          cases w with
          | nil =>
              rw [if_neg (by simp)]
              rfl
          | cons c cs =>
              have hcOK := (idxOK_iff c).1 (hw c (List.mem_cons_self c cs))
              rw [Trie.containsAux, Trie.containsAux, if_pos hcOK, if_pos hcOK]
              by_cases hslot : (charIdx c).toNat = (charIdx a).toNat
              · have hca : c = a := by
                  apply charToNat_inj
                  simp only [charIdx] at hslot h hcOK
                  omega
                subst hca
                rw [if_pos hslot]
                have ih := containsAux_insertAux as _ nt hrec cs
                  (fun x hx => hw x (List.mem_cons_of_mem _ hx))
                rcases hfa : f (charIdx c).toNat with _ | t0 <;>
                  rw [hfa] at ih hrec <;>
                  simp only [Option.getD] at ih <;>
                  dsimp only <;>
                  rw [ih]
                · by_cases hcs : cs = as
                  · rw [if_pos hcs, if_pos (by rw [hcs])]
                  · rw [if_neg hcs, if_neg (by simp [hcs])]
                    exact containsAux_emptyTrie cs
                      (fun x hx => hw x (List.mem_cons_of_mem _ hx))
                · by_cases hcs : cs = as
                  · rw [if_pos hcs, if_pos (by rw [hcs])]
                  · rw [if_neg hcs, if_neg (by simp [hcs])]
              · rw [if_neg hslot]
                have hcne : (c :: cs) ≠ (a :: as) := by
                  intro heq
                  injection heq with h1 h2
                  exact hslot (by rw [h1])
                rw [if_neg hcne]
      · rw [if_neg h] at hins
        exact absurd hins (by simp)
  termination_by v => v.length

/-- Bulk insertion: a lowered word is contained in the result exactly
when it was inserted (or already present). -/
theorem containsAux_insertAll : ∀ (ws : List Word) (t t' : Trie),
    insertAll t ws = some t' →
    ∀ lw : Word, (∀ c ∈ lw, idxOK c = true) →
    (Trie.containsAux t' lw = some true ↔
      lw ∈ ws.map (fun v => v.map Char.toLower) ∨ Trie.containsAux t lw = some true)
  | [], t, t', hins, lw, hlw => by
      rw [insertAll] at hins
      simp only [Option.some.injEq] at hins
      subst hins
      simp
  | v :: vs, t, t', hins, lw, hlw => by
      rw [insertAll] at hins
      rcases hgo : t.insertGo v with _ | t1
      · rw [hgo] at hins
        exact absurd hins (by simp)
      · rw [hgo] at hins
        have ih := containsAux_insertAll vs t1 t' hins lw hlw
        rw [Trie.insertGo] at hgo
        have hstep := containsAux_insertAux (v.map Char.toLower) t t1 hgo lw hlw
        rw [ih, hstep]
        by_cases heq : lw = v.map Char.toLower
        · subst heq
          simp
        · rw [if_neg heq]
          simp [heq]

/-- C10: for every word all of whose characters lowercase into
'a'..'z', `ContainsWord` performs only in-bounds accesses of the
26-entry child array (no panic), and on a trie built by a sequence of
`Insert` calls it returns true exactly for the previously inserted
words (up to the lowercasing both operations perform); `Child`
performs an in-bounds access precisely when the computed index
`int(c - 'a')` lies in `[0, 26)`, i.e. precisely for characters in
'a'..'z' — for any other character (digit, hyphen, non-ASCII) the
access is out of bounds. -/
theorem trie_inbounds_roundtrip :
    (∀ (t : Trie) (w : Word), (∀ c ∈ w.map Char.toLower, idxOK c = true) →
        (t.containsWord w).isSome) ∧
      (∀ (t : Trie) (c : Char), (t.childGo c).isSome ↔ idxOK c = true) ∧
      (∀ (ws : List Word) (t : Trie) (w : Word),
        insertAll Trie.emptyTrie ws = some t →
        (∀ v ∈ ws, ∀ c ∈ v.map Char.toLower, idxOK c = true) →
        (∀ c ∈ w.map Char.toLower, idxOK c = true) →
        (t.containsWord w = some true ↔
          w.map Char.toLower ∈ ws.map (fun v => v.map Char.toLower))) := by
  refine ⟨fun t w hw => containsAux_isSome _ t hw, fun t c => ?_, ?_⟩
  · obtain ⟨b, f⟩ := t
    rw [Trie.childGo]
    by_cases h : 0 ≤ charIdx c ∧ charIdx c < 26
    · rw [if_pos h]
      simp [idxOK_iff, h]
    · rw [if_neg h]
      simp [idxOK_iff, h]
  · intro ws t w hins hws hw
    rw [Trie.containsWord]
    rw [containsAux_insertAll ws Trie.emptyTrie t hins (w.map Char.toLower) hw]
    rw [containsAux_emptyTrie (w.map Char.toLower) hw]
    simp

/-- Witness for C10 at a concrete insert/lookup. -/
theorem trie_inbounds_roundtrip_witness :
    (insertAll Trie.emptyTrie [['h', 'E', 'l', 'l', 'o']]).bind
      (fun t => t.containsWord ['H', 'e', 'L', 'L', 'O']) = some true := by
  have hs : (insertAll Trie.emptyTrie [['h', 'E', 'l', 'l', 'o']]).isSome = true := rfl
  rcases hres : insertAll Trie.emptyTrie [['h', 'E', 'l', 'l', 'o']] with _ | t
  · rw [hres] at hs
    exact absurd hs (by simp)
  · rw [Option.bind]
    exact (trie_inbounds_roundtrip.2.2 [['h', 'E', 'l', 'l', 'o']] t
      ['H', 'e', 'L', 'L', 'O'] hres (by decide) (by decide)).2 (by decide)

/-! ## Frontier lemmas -/

theorem mem_expand {dict : Dict} {board : Word} {cols rows : Nat} {qn qn' : QNode} :
    qn' ∈ expand dict board cols rows qn ↔
      ∃ c, c ∈ calculateAdjacency cols rows qn.parentSquare ∧ c ∉ qn.seen ∧
        livePfx dict (qn.pfx ++ [letterAt board c]) = true ∧
        qn' = childNode board qn c := by
  simp only [expand, admissibleSquares, List.mem_map, List.mem_filter,
    Bool.and_eq_true, Bool.not_eq_true']
  constructor
  · rintro ⟨c, ⟨hadj, hseen, hlive⟩, rfl⟩
    refine ⟨c, hadj, ?_, hlive, rfl⟩
    intro hmem
    rw [← @List.elem_iff _ _ _ c qn.seen] at hmem
    rw [show qn.seen.contains c = List.elem c qn.seen from rfl] at hseen
    rw [hmem] at hseen
    exact Bool.noConfusion hseen
  · rintro ⟨c, hadj, hseen, hlive, rfl⟩
    refine ⟨c, ⟨hadj, ?_, hlive⟩, rfl⟩
    rw [show qn.seen.contains c = List.elem c qn.seen from rfl]
    rcases helem : List.elem c qn.seen with _ | _
    · rfl
    · exact absurd (List.elem_iff.1 helem) hseen

theorem initNode_invT {dict : Dict} {board : Word} {B i : Nat} (h : i < B) :
    InvT B (initNode dict board i) := by
  refine ⟨by simp [initNode], by simp [initNode], ?_, by simp [initNode]⟩
  intro c hc
  simp only [initNode, List.mem_singleton] at hc
  rw [hc]
  exact h

theorem parentSquare_lt {B : Nat} {qn : QNode} (hInv : InvT B qn) :
    qn.parentSquare < B :=
  hInv.2.2.1 qn.parentSquare (List.mem_of_mem_getLast? (by rw [hInv.2.2.2]; rfl))

theorem expand_invT {dict : Dict} {board : Word} {cols rows : Nat} {qn qn' : QNode}
    (hInv : InvT (cols * rows) qn) (h : qn' ∈ expand dict board cols rows qn) :
    InvT (cols * rows) qn' ∧ qn'.seen = qn.seen ++ [qn'.parentSquare] ∧
      qn'.parentSquare ∉ qn.seen := by
  obtain ⟨c, hadj, hseen, hlive, rfl⟩ := mem_expand.1 h
  have hclt : c < cols * rows :=
    mem_calculateAdjacency_lt (parentSquare_lt hInv) hadj
  refine ⟨⟨by simp [childNode], ?_, ?_, ?_⟩, rfl, hseen⟩
  · rw [show (childNode board qn c).seen = qn.seen ++ [c] from rfl, List.nodup_append]
    exact ⟨hInv.2.1, List.nodup_singleton c,
      fun a ha hb => hseen ((List.mem_singleton.1 hb) ▸ ha)⟩
  · intro x hx
    rw [show (childNode board qn c).seen = qn.seen ++ [c] from rfl] at hx
    rcases List.mem_append.1 hx with hx | hx
    · exact hInv.2.2.1 x hx
    · rw [List.mem_singleton.1 hx]
      exact hclt
  · rw [show (childNode board qn c).seen = qn.seen ++ [c] from rfl]
    exact List.getLast?_concat _

/-- C6: every state placed on the frontier satisfies the simple-path
invariant and every extension step preserves it: the initial state of
each start cell satisfies it, and each expansion of an invariant state
yields invariant states whose visited list is a fresh copy of the
parent's extended by exactly the new (previously unvisited) cell. -/
theorem frontier_invariant (dict : Dict) (board : Word) (cols rows : Nat) :
    (∀ i, i < cols * rows → InvT (cols * rows) (initNode dict board i)) ∧
      (∀ qn, InvT (cols * rows) qn → ∀ qn' ∈ expand dict board cols rows qn,
        InvT (cols * rows) qn' ∧ qn'.seen = qn.seen ++ [qn'.parentSquare] ∧
          qn'.parentSquare ∉ qn.seen) :=
  ⟨fun _ h => initNode_invT h, fun _ hInv _ h => expand_invT hInv h⟩

/-- Witness for C6 at a concrete expansion step. -/
theorem frontier_invariant_witness :
    InvT 2 (initNode [['a', 'b']] ['a', 'b'] 0) ∧
      InvT 2 (childNode ['a', 'b'] (initNode [['a', 'b']] ['a', 'b'] 0) 1) := by
  have h := frontier_invariant [['a', 'b']] ['a', 'b'] 2 1
  have h0 := h.1 0 (by decide)
  have hmem : childNode ['a', 'b'] (initNode [['a', 'b']] ['a', 'b'] 0) 1 ∈
      expand [['a', 'b']] ['a', 'b'] 2 1 (initNode [['a', 'b']] ['a', 'b'] 0) := by
    decide
  exact ⟨h0, (h.2 _ h0 _ hmem).1⟩

/-! ## Drain lemmas: monotonicity, membership, termination -/

theorem drain_mono {dict : Dict} {board : Word} {cols rows : Nat} :
    ∀ (fuel : Nat) (q : List QNode) (ws out : List Word),
    drain dict board cols rows fuel q ws = some out → ∀ x ∈ ws, x ∈ out
  | 0, [], ws, out, h => by
      rw [drain] at h
      simp only [Option.some.injEq] at h
      exact h ▸ fun x hx => hx
  | 0, _ :: _, ws, out, h => by
      rw [drain] at h
      exact absurd h (by simp)
  | _ + 1, [], ws, out, h => by
      rw [drain] at h
      simp only [Option.some.injEq] at h
      exact h ▸ fun x hx => hx
  | fuel + 1, qn :: rest, ws, out, h => by
      rw [drain] at h
      exact fun x hx =>
        drain_mono fuel _ _ out h x (List.mem_append_left _ hx)

theorem drain_mem {dict : Dict} {board : Word} {cols rows : Nat} :
    ∀ (fuel : Nat) (q : List QNode) (ws out : List Word),
    drain dict board cols rows fuel q ws = some out →
    ∀ x, x ∈ out ↔ x ∈ ws ∨ ∃ qn ∈ q, Emits dict board cols rows qn x
  | 0, [], ws, out, h => by
      rw [drain] at h
      simp only [Option.some.injEq] at h
      subst h
      simp
  | 0, _ :: _, ws, out, h => by
      rw [drain] at h
      exact absurd h (by simp)
  | _ + 1, [], ws, out, h => by
      rw [drain] at h
      simp only [Option.some.injEq] at h
      subst h
      simp
  | fuel + 1, qn :: rest, ws, out, h => by
      rw [drain] at h
      intro x
      rw [drain_mem fuel _ _ out h x]
      constructor
      · rintro (hx | ⟨qn', hq', he⟩)
        · rcases List.mem_append.1 hx with hx | hx
          · exact Or.inl hx
          · exact Or.inr ⟨qn, List.mem_cons_self _ _, Emits.here hx⟩
        · rcases List.mem_append.1 hq' with hq' | hq'
          · exact Or.inr ⟨qn', List.mem_cons_of_mem _ hq', he⟩
          · exact Or.inr ⟨qn, List.mem_cons_self _ _, Emits.deeper hq' he⟩
      · rintro (hx | ⟨qn', hq', he⟩)
        · exact Or.inl (List.mem_append_left _ hx)
        · rcases List.mem_cons.1 hq' with rfl | hq'
          · cases he with
            | here hx => exact Or.inl (List.mem_append_right _ hx)
            | deeper hmem he' =>
                exact Or.inr ⟨_, List.mem_append_right _ hmem, he'⟩
          · exact Or.inr ⟨qn', List.mem_append_left _ hq', he⟩

/-- The termination measure of the queue: each node weighs
`9 ^ (board size - path length)`. -/
def measureQ (B : Nat) (q : List QNode) : Nat :=
  (q.map (fun qn => 9 ^ (B - qn.seen.length))).sum

theorem measureQ_append (B : Nat) (q₁ q₂ : List QNode) :
    measureQ B (q₁ ++ q₂) = measureQ B q₁ + measureQ B q₂ := by
  simp [measureQ]

theorem seen_full {B : Nat} {seen : List Nat} (hnd : seen.Nodup)
    (hlt : ∀ c ∈ seen, c < B) (hlen : B ≤ seen.length) :
    ∀ c, c < B → c ∈ seen := by
  have hsub : seen.toFinset ⊆ Finset.range B := by
    intro c hc
    rw [Finset.mem_range]
    exact hlt c (List.mem_toFinset.1 hc)
  have hcard : (Finset.range B).card ≤ seen.toFinset.card := by
    rw [Finset.card_range, List.toFinset_card_of_nodup hnd]
    exact hlen
  have heq := Finset.eq_of_subset_of_card_le hsub hcard
  intro c hc
  rw [← List.mem_toFinset, heq, Finset.mem_range]
  exact hc

theorem expand_eq_nil_of_full {dict : Dict} {board : Word} {cols rows : Nat}
    {qn : QNode} (hInv : InvT (cols * rows) qn)
    (hlen : cols * rows ≤ qn.seen.length) :
    expand dict board cols rows qn = [] := by
  rw [expand, admissibleSquares]
  rw [List.filter_eq_nil_iff.2 ?_]
  · rfl
  · intro c hc
    have hclt : c < cols * rows :=
      mem_calculateAdjacency_lt (parentSquare_lt hInv) hc
    have hmem : c ∈ qn.seen := seen_full hInv.2.1 hInv.2.2.1 hlen c hclt
    simp only [Bool.and_eq_true, Bool.not_eq_true', not_and]
    intro hcontains
    rw [show qn.seen.contains c = List.elem c qn.seen from rfl] at hcontains
    rw [List.elem_iff.2 hmem] at hcontains
    exact Bool.noConfusion hcontains

theorem expand_seen_length {dict : Dict} {board : Word} {cols rows : Nat}
    {qn qn' : QNode} (h : qn' ∈ expand dict board cols rows qn) :
    qn'.seen.length = qn.seen.length + 1 := by
  obtain ⟨c, _, _, _, rfl⟩ := mem_expand.1 h
  simp [childNode]

theorem expand_length_le {dict : Dict} {board : Word} {cols rows : Nat}
    (qn : QNode) : (expand dict board cols rows qn).length ≤ 8 := by
  calc (expand dict board cols rows qn).length
      = (admissibleSquares dict board cols rows qn).length := List.length_map _ _
    _ ≤ (calculateAdjacency cols rows qn.parentSquare).length :=
        List.length_filter_le _ _
    _ ≤ 8 := calculateAdjacency_length_le _ _ _

theorem measureQ_cons (B : Nat) (qn : QNode) (q : List QNode) :
    measureQ B (qn :: q) = 9 ^ (B - qn.seen.length) + measureQ B q := by
  simp [measureQ]

theorem measureQ_expand_lt {dict : Dict} {board : Word} {cols rows : Nat}
    {qn : QNode} (hInv : InvT (cols * rows) qn) :
    measureQ (cols * rows) (expand dict board cols rows qn) + 1 ≤
      9 ^ (cols * rows - qn.seen.length) := by
  by_cases hfull : cols * rows ≤ qn.seen.length
  · rw [expand_eq_nil_of_full hInv hfull]
    have hp : 0 < 9 ^ (cols * rows - qn.seen.length) := Nat.pow_pos (by omega)
    rw [measureQ]
    simp only [List.map_nil, List.sum_nil]
    omega
  · have hbound : measureQ (cols * rows) (expand dict board cols rows qn) ≤
        (expand dict board cols rows qn).length *
          9 ^ (cols * rows - qn.seen.length - 1) := by
      rw [measureQ]
      have hle := List.sum_le_card_nsmul
        ((expand dict board cols rows qn).map
          (fun qn' => 9 ^ (cols * rows - qn'.seen.length)))
        (9 ^ (cols * rows - qn.seen.length - 1)) ?_
      · simpa [List.length_map, smul_eq_mul] using hle
      · intro x hx
        obtain ⟨qn', hq', rfl⟩ := List.mem_map.1 hx
        rw [expand_seen_length hq']
        have hexp : cols * rows - (qn.seen.length + 1) =
            cols * rows - qn.seen.length - 1 := by omega
        rw [hexp]
    have h8 : (expand dict board cols rows qn).length ≤ 8 := expand_length_le qn
    have hK : 0 < 9 ^ (cols * rows - qn.seen.length - 1) := Nat.pow_pos (by omega)
    have hexp : cols * rows - qn.seen.length =
        (cols * rows - qn.seen.length - 1) + 1 := by omega
    rw [hexp, pow_succ]
    have hmul : measureQ (cols * rows) (expand dict board cols rows qn) ≤
        8 * 9 ^ (cols * rows - qn.seen.length - 1) :=
      le_trans hbound (Nat.mul_le_mul_right _ h8)
    omega

theorem drain_isSome {dict : Dict} {board : Word} {cols rows : Nat} :
    ∀ (fuel : Nat) (q : List QNode) (ws : List Word),
    (∀ qn ∈ q, InvT (cols * rows) qn) → measureQ (cols * rows) q ≤ fuel →
    (drain dict board cols rows fuel q ws).isSome
  | 0, [], ws, _, _ => by
      rw [drain]
      rfl
  | 0, qn :: rest, ws, hInv, hm => by
      exfalso
      have hp : 0 < 9 ^ (cols * rows - qn.seen.length) := Nat.pow_pos (by omega)
      rw [measureQ_cons] at hm
      omega
  | _ + 1, [], ws, _, _ => by
      rw [drain]
      rfl
  | fuel + 1, qn :: rest, ws, hInv, hm => by
      rw [drain]
      apply drain_isSome fuel
      · intro qn' hq'
        rcases List.mem_append.1 hq' with h | h
        · exact hInv qn' (List.mem_cons_of_mem _ h)
        · exact (expand_invT (hInv qn (List.mem_cons_self _ _)) h).1
      · rw [measureQ_append]
        have hstep := @measureQ_expand_lt dict board cols rows qn
          (hInv qn (List.mem_cons_self _ _))
        rw [measureQ_cons] at hm
        omega

theorem runCells_isSome {dict : Dict} {board : Word} {cols rows : Nat} :
    ∀ (cells : List Nat) (ws : List Word),
    (∀ i ∈ cells, i < cols * rows) →
    (runCells dict board cols rows (9 ^ (cols * rows)) cells ws).isSome
  | [], ws, _ => by
      rw [runCells]
      rfl
  | i :: is, ws, h => by
      rw [runCells]
      have hd : (drain dict board cols rows (9 ^ (cols * rows))
          [initNode dict board i] ws).isSome := by
        apply drain_isSome
        · intro qn hq
          rw [List.mem_singleton.1 hq]
          exact initNode_invT (h i (List.mem_cons_self _ _))
        · rw [measureQ_cons]
          have hB : 1 ≤ cols * rows := by
            have := h i (List.mem_cons_self _ _)
            omega
          have hle : 9 ^ (cols * rows - (initNode dict board i).seen.length) ≤
              9 ^ (cols * rows) := Nat.pow_le_pow_right (by omega) (by omega)
          rw [measureQ]
          simp only [List.map_nil, List.sum_nil]
          omega
      rcases hres : drain dict board cols rows (9 ^ (cols * rows))
          [initNode dict board i] ws with _ | ws'
      · rw [hres] at hd
        exact absurd hd (by simp)
      · exact runCells_isSome is ws' (fun j hj => h j (List.mem_cons_of_mem _ hj))

theorem runCells_mem {dict : Dict} {board : Word} {cols rows fuel : Nat} :
    ∀ (cells : List Nat) (ws out : List Word),
    runCells dict board cols rows fuel cells ws = some out →
    ∀ x, x ∈ out ↔ x ∈ ws ∨
      ∃ i ∈ cells, Emits dict board cols rows (initNode dict board i) x
  | [], ws, out, h, x => by
      rw [runCells] at h
      simp only [Option.some.injEq] at h
      subst h
      simp
  | i :: is, ws, out, h, x => by
      rw [runCells] at h
      rcases hres : drain dict board cols rows fuel [initNode dict board i] ws
        with _ | ws'
      · rw [hres] at h
        exact absurd h (by simp)
      · rw [hres] at h
        rw [runCells_mem is ws' out h x, drain_mem fuel _ ws ws' hres x]
        constructor
        · rintro ((hx | ⟨qn, hq, he⟩) | ⟨j, hj, he⟩)
          · exact Or.inl hx
          · exact Or.inr ⟨i, List.mem_cons_self _ _,
              (List.mem_singleton.1 hq) ▸ he⟩
          · exact Or.inr ⟨j, List.mem_cons_of_mem _ hj, he⟩
        · rintro (hx | ⟨j, hj, he⟩)
          · exact Or.inl (Or.inl hx)
          · rcases List.mem_cons.1 hj with rfl | hj
            · exact Or.inl (Or.inr ⟨_, List.mem_singleton_self _, he⟩)
            · exact Or.inr ⟨j, hj, he⟩

/-- C8: `Solve` always terminates — the embedded search loop never
exhausts its fuel, because every pushed state's visited list is one
longer than its parent's and visited lists are bounded by the board
size, so for every solver and every grid the call returns. -/
theorem solve_isSome (s : Solver) (grid : Word) : (s.solve grid).isSome := by
  obtain ⟨cols, rows, rt⟩ := s
  rcases rt with _ | dict
  · rfl
  · rw [Solver.solve]
    simp only
    by_cases hlen : grid.length = Solver.boardSize ⟨cols, rows, some dict⟩
    · rw [if_neg (by simp [hlen])]
      simp only [Solver.boardSize]
      have hrun := @runCells_isSome dict (grid.map Char.toLower) cols rows
        (List.range (cols * rows)) []
        (fun i hi => List.mem_range.1 hi)
      rcases hres : runCells dict (grid.map Char.toLower) cols rows
          (9 ^ (cols * rows)) (List.range (cols * rows)) [] with _ | raw
      · rw [hres] at hrun
        exact absurd hrun (by simp)
      · rfl
    · rw [if_pos hlen]
      by_cases h2 : grid.length < Solver.boardSize ⟨cols, rows, some dict⟩
      · rw [if_pos h2]
        rfl
      · rw [if_neg h2]
        rfl

/-- C3: with a built dictionary, `Solve` on a grid shorter than
`columns*rows` returns the "not enough letters" error, on a longer
grid the "too many letters" error, and on a grid of exactly
`columns*rows` characters it returns a word list; the length errors
are produced before any traversal, so an erroring call yields no
words. -/
theorem solve_length_validation {s : Solver} {dict : Dict} (grid : Word)
    (hrt : s.rt = some dict) :
    (grid.length < s.boardSize →
        s.solve grid = some (Except.error "not enough letters for board")) ∧
      (s.boardSize < grid.length →
        s.solve grid = some (Except.error "too many letters for board")) ∧
      (grid.length = s.boardSize → ∃ ws, s.solve grid = some (Except.ok ws)) := by
  obtain ⟨cols, rows, rt⟩ := s
  simp only at hrt
  subst hrt
  refine ⟨fun h => ?_, fun h => ?_, fun h => ?_⟩
  · rw [Solver.solve]
    simp only
    rw [if_pos (by omega), if_pos h]
  · rw [Solver.solve]
    simp only
    rw [if_pos (by omega), if_neg (by omega)]
  · rw [Solver.solve]
    simp only
    rw [if_neg (by omega)]
    simp only [Solver.boardSize]
    have hrun := @runCells_isSome dict (grid.map Char.toLower) cols rows
      (List.range (cols * rows)) []
      (fun i hi => List.mem_range.1 hi)
    rcases hres : runCells dict (grid.map Char.toLower) cols rows
        (9 ^ (cols * rows)) (List.range (cols * rows)) [] with _ | raw
    · rw [hres] at hrun
      exact absurd hrun (by simp)
    · exact ⟨uniqueSortedWords raw, rfl⟩

/-- Witness for C3 at concrete grids. -/
theorem solve_length_validation_witness :
    (Solver.mk 2 1 (some [])).solve ['a'] =
        some (Except.error "not enough letters for board") ∧
      (Solver.mk 2 1 (some [])).solve ['a', 'b', 'c'] =
        some (Except.error "too many letters for board") ∧
      ∃ ws, (Solver.mk 2 1 (some [])).solve ['a', 'b'] = some (Except.ok ws) :=
  ⟨(solve_length_validation ['a'] rfl).1 (by decide),
    (solve_length_validation ['a', 'b', 'c'] rfl).2.1 (by decide),
    (solve_length_validation ['a', 'b'] rfl).2.2 (by decide)⟩

/-! ## Soundness and completeness of the search -/

theorem initNode_invS {dict : Dict} {board : Word} {cols rows : Nat} {i : Nat}
    (h : i < cols * rows) : InvS dict board cols rows (initNode dict board i) := by
  refine ⟨⟨by simp [initNode], by simp [initNode], ?_, by simp [initNode]⟩,
    by simp [initNode], ?_⟩
  · intro c hc
    simp only [initNode, List.mem_singleton] at hc
    rw [hc]
    exact h
  · dsimp only [initNode]
    split
    · exact Or.inl (by simp)
    · exact Or.inr (by simp)

theorem expand_invS {dict : Dict} {board : Word} {cols rows : Nat} {qn qn' : QNode}
    (hInv : InvS dict board cols rows qn) (h : qn' ∈ expand dict board cols rows qn) :
    InvS dict board cols rows qn' := by
  obtain ⟨⟨hne, hnd, hlt, hch⟩, hlast, hpfx⟩ := hInv
  obtain ⟨c, hadj, hseen, hlive, rfl⟩ := mem_expand.1 h
  have hplt : qn.parentSquare < cols * rows :=
    hlt _ (List.mem_of_mem_getLast? (by rw [hlast]; rfl))
  have hclt : c < cols * rows := mem_calculateAdjacency_lt hplt hadj
  refine ⟨⟨by simp [childNode], ?_, ?_, ?_⟩, ?_, ?_⟩
  · show (qn.seen ++ [c]).Nodup
    rw [List.nodup_append]
    exact ⟨hnd, List.nodup_singleton c,
      fun a ha hb => hseen ((List.mem_singleton.1 hb) ▸ ha)⟩
  · intro x hx
    rcases List.mem_append.1 hx with hx | hx
    · exact hlt x hx
    · rw [List.mem_singleton.1 hx]
      exact hclt
  · show List.Chain' _ (qn.seen ++ [c])
    rw [List.chain'_append]
    refine ⟨hch, List.chain'_singleton _, ?_⟩
    intro x hx y hy
    rw [Option.mem_def, hlast] at hx
    injection hx with hx
    simp only [List.head?_cons, Option.mem_def, Option.some.injEq] at hy
    rw [← hx, ← hy]
    exact hadj
  · show (qn.seen ++ [c]).getLast? = some c
    exact List.getLast?_concat _
  · rcases hpfx with hp | hp
    · refine Or.inl ?_
      show qn.pfx ++ [letterAt board c] = (qn.seen ++ [c]).map (letterAt board)
      rw [hp, List.map_append]
      rfl
    · refine Or.inr ?_
      show qn.pfx ++ [letterAt board c] = ((qn.seen ++ [c]).drop 1).map (letterAt board)
      rcases hsq : qn.seen with _ | ⟨s0, srest⟩
      · exact absurd hsq hne
      · rw [hsq] at hp
        rw [hp]
        simp [List.map_append]

theorem tail_isPath {cols rows : Nat} {p : List Nat} (h : IsPath cols rows p)
    (hlen : 2 ≤ p.length) : IsPath cols rows (p.drop 1) := by
  obtain ⟨hne, hnd, hlt, hch⟩ := h
  refine ⟨?_, ?_, ?_, ?_⟩
  · intro h0
    have hl := List.length_drop 1 p
    rw [h0] at hl
    simp at hl
    omega
  · exact hnd.sublist (List.drop_sublist 1 p)
  · exact fun c hc => hlt c (List.mem_of_mem_drop hc)
  · rw [List.drop_one]
    exact hch.tail

theorem emits_spellable {dict : Dict} {board : Word} {cols rows : Nat}
    {qn : QNode} {x : Word} (he : Emits dict board cols rows qn x) :
    InvS dict board cols rows qn →
    ∃ d, d ∈ dict ∧ (∃ p, IsPath cols rows p ∧ d = p.map (letterAt board)) ∧
      x = rehydrate d := by
  induction he with
  | here hx =>
      intro hInv
      rw [emittedWords] at hx
      obtain ⟨n, hn, hreh⟩ := List.mem_map.1 hx
      rw [List.mem_filter] at hn
      obtain ⟨hnmem, hncont⟩ := hn
      have hInvn := expand_invS hInv hnmem
      have hd : n.pfx ∈ dict := List.elem_iff.1 hncont
      obtain ⟨c, _, _, _, rfl⟩ := mem_expand.1 hnmem
      rcases hInvn.2.2 with hp | hp
      · exact ⟨_, hd, ⟨_, hInvn.1, hp⟩, hreh.symm⟩
      · refine ⟨_, hd, ⟨_, tail_isPath hInvn.1 ?_, hp⟩, hreh.symm⟩
        have hqlen := List.length_pos.2 hInv.1.1
        simp only [childNode, List.length_append, List.length_singleton]
        omega
  | deeper hmem he ih =>
      intro hInv
      exact ih (expand_invS hInv hmem)

theorem prefix_livePfx {dict : Dict} {d p : Word} (hd : d ∈ dict) (hp : p <+: d) :
    livePfx dict p = true := by
  rw [livePfx, List.any_eq_true]
  exact ⟨d, hd, List.isPrefixOf_iff_prefix.2 hp⟩

theorem emits_of_path {dict : Dict} {board : Word} {cols rows : Nat} :
    ∀ (rest : List Nat) (qn : QNode) (d : Word), d ∈ dict →
    (qn.seen ++ rest).Nodup →
    List.Chain' (fun a b => b ∈ calculateAdjacency cols rows a) (qn.seen ++ rest) →
    qn.seen ≠ [] →
    qn.seen.getLast? = some qn.parentSquare →
    qn.pfx ++ rest.map (letterAt board) = d →
    rest ≠ [] →
    Emits dict board cols rows qn (rehydrate d)
  | [], _, _, _, _, _, _, _, _, hne => absurd rfl hne
  | c :: rest', qn, d, hd, hnd, hch, hsne, hlast, hpfx, _ => by
      have hadj : c ∈ calculateAdjacency cols rows qn.parentSquare := by
        rw [List.chain'_append] at hch
        exact hch.2.2 qn.parentSquare (by rw [Option.mem_def, hlast])
          c (by simp)
      have hcseen : c ∉ qn.seen := by
        rw [List.nodup_append] at hnd
        exact fun hmem => hnd.2.2 hmem (List.mem_cons_self c rest')
      have hlive : livePfx dict (qn.pfx ++ [letterAt board c]) = true := by
        apply prefix_livePfx hd
        rw [← hpfx]
        refine ⟨rest'.map (letterAt board), ?_⟩
        simp
      have hmem : childNode board qn c ∈ expand dict board cols rows qn :=
        mem_expand.2 ⟨c, hadj, hcseen, hlive, rfl⟩
      cases rest' with
      | nil =>
          have hpfx' : (childNode board qn c).pfx = d := by
            show qn.pfx ++ [letterAt board c] = d
            rw [← hpfx]
            simp
          apply Emits.here
          rw [emittedWords]
          apply List.mem_map.2
          refine ⟨childNode board qn c, ?_, by rw [hpfx']⟩
          rw [List.mem_filter]
          refine ⟨hmem, ?_⟩
          rw [hpfx']
          exact List.elem_iff.2 hd
      | cons c' rest'' =>
          apply Emits.deeper hmem
          apply emits_of_path (c' :: rest'') (childNode board qn c) d hd
          · show ((qn.seen ++ [c]) ++ (c' :: rest'')).Nodup
            rw [List.append_assoc, List.singleton_append]
            exact hnd
          · show List.Chain' _ ((qn.seen ++ [c]) ++ (c' :: rest''))
            rw [List.append_assoc, List.singleton_append]
            exact hch
          · simp [childNode]
          · show (qn.seen ++ [c]).getLast? = some c
            exact List.getLast?_concat _
          · show (qn.pfx ++ [letterAt board c]) ++ (c' :: rest'').map (letterAt board) = d
            rw [← hpfx]
            simp
          · simp

theorem spellable_emits {dict : Dict} {board : Word} {cols rows : Nat} {d : Word}
    (hd2 : 2 ≤ d.length) (hsp : Spellable dict board cols rows d) :
    ∃ i, i < cols * rows ∧ livePfx dict [letterAt board i] = true ∧
      Emits dict board cols rows (initNode dict board i) (rehydrate d) := by
  obtain ⟨hd, p, ⟨hne, hnd, hlt, hch⟩, hmap⟩ := hsp
  rcases p with _ | ⟨c0, rest⟩
  · exact absurd rfl hne
  have hrestne : rest ≠ [] := by
    intro h0
    subst h0
    rw [hmap] at hd2
    simp at hd2
  have hlive0 : livePfx dict [letterAt board c0] = true := by
    apply prefix_livePfx hd
    rw [hmap]
    exact ⟨rest.map (letterAt board), rfl⟩
  refine ⟨c0, hlt c0 (List.mem_cons_self _ _), hlive0, ?_⟩
  apply emits_of_path rest (initNode dict board c0) d hd
  · show ((initNode dict board c0).seen ++ rest).Nodup
    rw [show (initNode dict board c0).seen = [c0] from rfl, List.singleton_append]
    exact hnd
  · show List.Chain' _ ((initNode dict board c0).seen ++ rest)
    rw [show (initNode dict board c0).seen = [c0] from rfl, List.singleton_append]
    exact hch
  · simp [initNode]
  · simp [initNode]
  · show (initNode dict board c0).pfx ++ rest.map (letterAt board) = d
    rw [show (initNode dict board c0).pfx =
      (if livePfx dict [letterAt board c0] then [letterAt board c0] else []) from rfl]
    rw [if_pos hlive0, hmap]
    rfl
  · exact hrestne

/-- The raw word list of a full run over all start cells contains
exactly the rehydrations of the spellable dictionary words. -/
theorem runCells_range_mem {dict : Dict} {board : Word} {cols rows : Nat}
    {out : List Word} (hd : ∀ d ∈ dict, 2 ≤ d.length)
    (hrun : runCells dict board cols rows (9 ^ (cols * rows))
      (List.range (cols * rows)) [] = some out) :
    ∀ x, x ∈ out ↔ ∃ d, Spellable dict board cols rows d ∧ x = rehydrate d := by
  intro x
  rw [runCells_mem _ _ _ hrun x]
  simp only [List.not_mem_nil, false_or, List.mem_range]
  constructor
  · rintro ⟨i, hi, he⟩
    obtain ⟨d, hdmem, hpath, hx⟩ := emits_spellable he (initNode_invS hi)
    exact ⟨d, ⟨hdmem, hpath⟩, hx⟩
  · rintro ⟨d, hsp, rfl⟩
    obtain ⟨i, hi, _, he⟩ := spellable_emits (hd d hsp.1) hsp
    exact ⟨i, hi, he⟩

theorem rehydrate_ne_nil {d : Word} (h : d ≠ []) : rehydrate d ≠ [] := by
  rcases d with _ | ⟨c, rest⟩
  · exact absurd rfl h
  · rw [rehydrate]
    by_cases hc : c = 'q'
    · rw [if_pos hc]
      simp
    · rw [if_neg hc]
      simp

/-- C1: for every solver with a built dictionary (every stored word
has length at least 2, as `loadWords`'s filters guarantee) and every
successful `Solve` call, the output is the deduplicated sorted
sequence containing exactly the stored dictionary entries spellable by
a simple path of adjacent cells of the lowercased grid, each
rehydrated (a leading collapsed 'q' reported as "qu"). -/
theorem solve_finds_exactly {s : Solver} {dict : Dict} {grid : Word}
    {out : List Word} (hrt : s.rt = some dict)
    (hd : ∀ d ∈ dict, 2 ≤ d.length)
    (hout : s.solve grid = some (Except.ok out)) :
    List.Pairwise ltW out ∧
      ∀ x, x ∈ out ↔ ∃ d, Spellable dict (grid.map Char.toLower) s.cols s.rows d ∧
        x = rehydrate d := by
  obtain ⟨dict', raw, hrt', hlen, hrun, houtEq⟩ := solve_ok_inv hout
  rw [hrt] at hrt'
  injection hrt' with hrt'
  subst hrt'
  subst houtEq
  refine ⟨uniqueSortedWords_pairwise raw, fun x => ?_⟩
  rw [mem_uniqueSortedWords]
  rw [show Solver.boardSize s = s.cols * s.rows from rfl] at hrun
  rw [runCells_range_mem hd hrun x]
  constructor
  · exact fun hx => hx.1
  · rintro ⟨d, hsp, rfl⟩
    refine ⟨⟨d, hsp, rfl⟩, ?_⟩
    apply rehydrate_ne_nil
    intro h0
    have := hd d hsp.1
    rw [h0] at this
    simp at this

/-- Witness for C1 at a concrete solver run. -/
theorem solve_finds_exactly_witness :
    List.Pairwise ltW [['a', 'b', 'c']] ∧
      (['a', 'b', 'c'] ∈ [['a', 'b', 'c']] ↔
        ∃ d, Spellable [['a', 'b', 'c']] (['a', 'b', 'c'].map Char.toLower) 3 1 d ∧
          ['a', 'b', 'c'] = rehydrate d) := by
  have h := @solve_finds_exactly ⟨3, 1, some [['a', 'b', 'c']]⟩
    [['a', 'b', 'c']] ['a', 'b', 'c']
    [['a', 'b', 'c']] rfl (by decide) rfl
  exact ⟨h.1, h.2 ['a', 'b', 'c']⟩

/-- C7, counterexample: with dictionary {"ab"} and grid "xab" (3×1),
no stored word starts with the letter 'x' of cell 0, yet the search
iteration for start cell 0 explores paths and contributes the word
"ab" (matched from the second and third cells of its path): the
ignored `stepper.Next` result leaves the stepper at the root, so the
start cell is not skipped and its iteration emits words. -/
theorem solve_dead_start_cex :
    livePfx [['a', 'b']] [letterAt ['x', 'a', 'b'] 0] = false ∧
      drain [['a', 'b']] ['x', 'a', 'b'] 3 1 729
        [initNode [['a', 'b']] ['x', 'a', 'b'] 0] [] = some [['a', 'b']] :=
  ⟨rfl, rfl⟩

/-- C7 (amended): a starting cell whose (lowercased) letter begins no
dictionary entry is not skipped — its initial state is still enqueued
with the stepper left at the root, and its iteration may even append
words — but every word it finds is also found from another start
cell, so `Solve`'s output equals the output obtained when that start
cell is omitted from the outer loop. -/
theorem solve_dead_start_skip {s : Solver} {dict : Dict} {grid : Word} {i : Nat}
    {r r' : Except String (List Word)}
    (hrt : s.rt = some dict)
    (hd : ∀ d ∈ dict, 2 ≤ d.length)
    (hdead : livePfx dict [letterAt (grid.map Char.toLower) i] = false)
    (h1 : s.solve grid = some r) (h2 : s.solveSkip i grid = some r') :
    r = r' := by
  obtain ⟨cols, rows, rt⟩ := s
  simp only at hrt
  subst hrt
  rw [Solver.solve] at h1
  rw [Solver.solveSkip] at h2
  simp only [Solver.boardSize] at h1 h2
  by_cases hlen : grid.length = cols * rows
  · rw [if_neg (by simp [hlen])] at h1 h2
    rcases hrun1 : runCells dict (grid.map Char.toLower) cols rows
        (9 ^ (cols * rows)) (List.range (cols * rows)) [] with _ | raw
    · rw [hrun1] at h1
      exact absurd h1 (by simp)
    · rw [hrun1] at h1
      rcases hrun2 : runCells dict (grid.map Char.toLower) cols rows
          (9 ^ (cols * rows))
          ((List.range (cols * rows)).filter (fun j => j ≠ i)) [] with _ | raw'
      · rw [hrun2] at h2
        exact absurd h2 (by simp)
      · rw [hrun2] at h2
        simp only [Option.some.injEq] at h1 h2
        rw [← h1, ← h2]
        congr 1
        apply eq_of_pairwise_ltW _ _ (uniqueSortedWords_pairwise raw)
          (uniqueSortedWords_pairwise raw')
        intro x
        rw [mem_uniqueSortedWords, mem_uniqueSortedWords]
        have hr := runCells_range_mem hd hrun1
        have hr' : ∀ y, y ∈ raw' ↔
            ∃ d, Spellable dict (grid.map Char.toLower) cols rows d ∧
              y = rehydrate d := by
          intro y
          rw [runCells_mem _ _ _ hrun2 y]
          simp only [List.not_mem_nil, false_or, List.mem_filter,
            List.mem_range, decide_eq_true_eq]
          constructor
          · rintro ⟨j, ⟨hj, _⟩, he⟩
            obtain ⟨d, hdmem, hpath, hx⟩ := emits_spellable he (initNode_invS hj)
            exact ⟨d, ⟨hdmem, hpath⟩, hx⟩
          · rintro ⟨d, hsp, rfl⟩
            obtain ⟨i0, hi0, hlive0, he0⟩ := spellable_emits (hd d hsp.1) hsp
            refine ⟨i0, ⟨hi0, ?_⟩, he0⟩
            intro h0
            rw [h0, hdead] at hlive0
            exact Bool.noConfusion hlive0
        rw [hr x, hr' x]
  · rw [if_pos hlen] at h1 h2
    by_cases h2l : grid.length < cols * rows
    · rw [if_pos h2l] at h1 h2
      simp only [Option.some.injEq] at h1 h2
      rw [← h1, ← h2]
    · rw [if_neg h2l] at h1 h2
      simp only [Option.some.injEq] at h1 h2
      rw [← h1, ← h2]

/-- Witness for C7's amended theorem at a concrete run: the dictionary
is {"ab"}, the 3×1 grid is "xab", cell 0 is a dead start. -/
theorem solve_dead_start_skip_witness :
    (Solver.mk 3 1 (some [['a', 'b']])).solve ['x', 'a', 'b'] =
      (Solver.mk 3 1 (some [['a', 'b']])).solveSkip 0 ['x', 'a', 'b'] := by
  have h : (Except.ok [['a', 'b']] : Except String (List Word)) =
      Except.ok [['a', 'b']] :=
    @solve_dead_start_skip ⟨3, 1, some [['a', 'b']]⟩
      [['a', 'b']] ['x', 'a', 'b'] 0
      (Except.ok [['a', 'b']]) (Except.ok [['a', 'b']])
      rfl (by decide) rfl rfl rfl
  rw [show (Solver.mk 3 1 (some [['a', 'b']])).solve ['x', 'a', 'b'] =
      some (Except.ok [['a', 'b']]) from rfl,
    show (Solver.mk 3 1 (some [['a', 'b']])).solveSkip 0 ['x', 'a', 'b'] =
      some (Except.ok [['a', 'b']]) from rfl]

/-- Witness for C2's amended theorem at a concrete solver run. -/
theorem solve_sorted_unique_witness :
    List.Pairwise ltW [['a', 'b', 'c']] ∧
      uniqueSortedWords [['b'], ['a'], ['b']] = normalizeSpec [['b'], ['a'], ['b']] :=
  ⟨solve_sorted_unique.1 ⟨3, 1, some [['a', 'b', 'c']]⟩ ['a', 'b', 'c']
      [['a', 'b', 'c']] rfl,
    solve_sorted_unique.2.1 [['b'], ['a'], ['b']] (by decide)⟩
